import Mathlib

/-!
Formal model of the prompt-optimization pipeline in `src/prompt_optimizer/`:
the run-scoped persistence layer (SQLAlchemy repositories over SQLite),
the evaluation engine, top-K selection, the parallel refinement tracks with
their convergence rule, the reporting stage and the orchestrator.

Modelling conventions:
* scores (`float` in the source) are modelled as rationals `ℚ`;
* a database table is a `List` of row structures kept in insertion order
  (SQLite rowid / creation order); `ORDER BY` is rendered as a stable
  insertion sort over that list, `LIMIT k` as `List.take k`;
* `session.merge` (upsert by primary key) replaces the row with the same id
  when present and appends otherwise;
* the external model oracle is an explicit deterministic function parameter;
* `asyncio` fan-out is modelled where a claim needs it: result collection by
  `asyncio.gather` is in task order, row insertion order of concurrent tasks
  is an arbitrary permutation, and the shape of concurrent oracle calls is
  reified as a tree of sequential / parallel compositions.
-/

attribute [local semireducible] Rat.sub Rat.mul Rat.add Rat.inv

namespace PromptOpt

/-- Identifier of a persisted prompt row (`prompts.id`).  The source uses
strings; `RefinementStage._create_refined_prompt` mints ids of the shape
`track{t}_iter{i}_{uuid8}`, which we model with a dedicated constructor
carrying the track and the iteration number (the uuid suffix only serves
uniqueness, which the constructor already provides). -/
inductive PromptId where
  | named : String → PromptId
  | refinedAt : ℕ → ℕ → PromptId
deriving DecidableEq

/-- Prompt lifecycle stage (`prompts.stage` in `storage/models.py`). -/
inductive Stage where
  | initial
  | quick_filter
  | rigorous
  | refined
deriving DecidableEq

/-- A persisted prompt row (`Prompt` in `storage/models.py`).  Columns not
touched by any claim (`strategy`, `quick_score`, `rigorous_score`,
`is_original_system_prompt`, `created_at`) are omitted; the creation order is
the position in the store list. -/
structure PromptRow where
  id : PromptId
  runId : ℕ
  promptText : String
  stage : Stage
  averageScore : Option ℚ
  iteration : ℕ
  trackId : Option ℕ
  parentPromptId : Option PromptId
deriving DecidableEq

/-- Ordering of optional scores under `DESC NULLS LAST`: `a` may come
before `b` iff `b`'s score is at most `a`'s, where a NULL score is below
every value. -/
def optScoreLE : Option ℚ → Option ℚ → Prop
  | some x, some y => y ≤ x
  | some _, none => True
  | none, some _ => False
  | none, none => True

instance : DecidableRel optScoreLE := fun a b =>
  match a, b with
  | some x, some y => inferInstanceAs (Decidable (y ≤ x))
  | some _, none => isTrue trivial
  | none, some _ => isFalse (fun h => h)
  | none, none => isTrue trivial

/-- Sort key of `ORDER BY average_score DESC NULLS LAST`
(`PromptRepository.get_by_stage` / `get_top_k`). -/
def scoreDescLE (a b : PromptRow) : Prop :=
  optScoreLE a.averageScore b.averageScore

instance : DecidableRel scoreDescLE := fun a b =>
  inferInstanceAs (Decidable (optScoreLE a.averageScore b.averageScore))

instance : IsTrans PromptRow scoreDescLE := by
  constructor
  intro a b c
  unfold scoreDescLE optScoreLE
  rcases a.averageScore with _ | x <;> rcases b.averageScore with _ | y <;>
    rcases c.averageScore with _ | z <;> intro hab hbc <;>
    first
      | trivial
      | exact le_trans hbc hab

instance : IsTotal PromptRow scoreDescLE := by
  constructor
  intro a b
  unfold scoreDescLE optScoreLE
  rcases a.averageScore with _ | x <;> rcases b.averageScore with _ | y
  · exact Or.inl trivial
  · exact Or.inr trivial
  · exact Or.inl trivial
  · exact (le_total y x).imp id id

/-- Sort key of `ORDER BY iteration` (`PromptRepository.get_by_track`). -/
def iterAscLE (a b : PromptRow) : Prop :=
  a.iteration ≤ b.iteration

instance : DecidableRel iterAscLE := fun a b =>
  inferInstanceAs (Decidable (a.iteration ≤ b.iteration))

instance : IsTrans PromptRow iterAscLE :=
  ⟨fun _ _ _ hab hbc => Nat.le_trans hab hbc⟩

instance : IsTotal PromptRow iterAscLE :=
  ⟨fun a b => Nat.le_total a.iteration b.iteration⟩

namespace PromptRepo

/-- `PromptRepository.save`: `session.merge` + commit — upsert by primary
key `id`. -/
def save (store : List PromptRow) (p : PromptRow) : List PromptRow :=
  if store.any (fun q => decide (q.id = p.id)) then
    store.map (fun q => if q.id = p.id then p else q)
  else
    store ++ [p]

/-- `PromptRepository.get_by_id`. -/
def get_by_id (store : List PromptRow) (pid : PromptId) : Option PromptRow :=
  store.find? (fun q => decide (q.id = pid))

/-- `PromptRepository.get_by_stage`: `WHERE run_id = … AND stage = …
ORDER BY average_score DESC NULLS LAST`.  The query has no tie-break key
and SQLite leaves the relative order of equal-key rows undefined
(plan-dependent), so the executable model commits to ONE possible plan — a
stable sort over the rowid-ordered table; no theorem below relies on which
of the tied orderings the plan picks. -/
def get_by_stage (store : List PromptRow) (run : ℕ) (stage : Stage) : List PromptRow :=
  (store.filter (fun p => decide (p.runId = run ∧ p.stage = stage))).insertionSort scoreDescLE

/-- `PromptRepository.get_top_k`: the `get_by_stage` query with `LIMIT k`.
As in `get_by_stage`, the sort models one possible execution plan; the
relative order of equal scores (and among NULLs) is NOT guaranteed by the
source query. -/
def get_top_k (store : List PromptRow) (run : ℕ) (stage : Stage) (k : ℕ) : List PromptRow :=
  ((store.filter (fun p => decide (p.runId = run ∧ p.stage = stage))).insertionSort
    scoreDescLE).take k

/-- `PromptRepository.get_by_track`: `WHERE run_id = … AND track_id = …
ORDER BY iteration`.  Again one possible plan of a query with no tie-break
key; the properties proved about it (sortedness by iteration) hold under
any plan. -/
def get_by_track (store : List PromptRow) (run t : ℕ) : List PromptRow :=
  (store.filter (fun p => decide (p.runId = run ∧ p.trackId = some t))).insertionSort iterAscLE

/-- `PromptRepository.get_all_for_run`. -/
def get_all_for_run (store : List PromptRow) (run : ℕ) : List PromptRow :=
  store.filter (fun p => decide (p.runId = run))

end PromptRepo

/-- Lineage invariant over a prompt store: every candidate with
`iteration > 0` has a non-null `parentPromptId` referencing a stored
candidate of the same run and the same `trackId` with strictly smaller
`iteration`. -/
def LineageOk (store : List PromptRow) : Prop :=
  ∀ p ∈ store, 0 < p.iteration →
    ∃ q ∈ store, p.parentPromptId = some q.id ∧ q.runId = p.runId ∧
      q.trackId = p.trackId ∧ q.iteration < p.iteration

instance (store : List PromptRow) : Decidable (LineageOk store) := by
  unfold LineageOk
  infer_instance

/-! ## Reporting stage (`optimizer/stages/reporting.py`) -/

/-- Derived view of one refinement track
(`RefinementTrackResult`; weaknesses history omitted). -/
structure TrackResult where
  trackId : ℕ
  initialPrompt : PromptRow
  finalPrompt : PromptRow
  iterations : List PromptRow
  scoreProgression : List ℚ
  improvement : ℚ
deriving DecidableEq

/-- Filter used by `ReportingStage._find_champion`: candidates that belong to
a refinement track (`track_id is not None and stage in ["rigorous",
"refined"]`). -/
def isTrackPrompt (p : PromptRow) : Bool :=
  p.trackId.isSome && decide (p.stage = Stage.rigorous ∨ p.stage = Stage.refined)

/-- All refinement-track candidates of a run, in creation order. -/
def trackPrompts (store : List PromptRow) (run : ℕ) : List PromptRow :=
  (PromptRepo.get_all_for_run store run).filter isTrackPrompt

/-- The key `lambda p: p.average_score or 0` of `_find_champion`. -/
def championKey (p : PromptRow) : ℚ :=
  p.averageScore.getD 0

/-- `ReportingStage._find_champion`: Python `max(track_prompts, key=…)` —
the first candidate attaining the maximal key; `none` models the
`ValueError` raised when no refinement-track prompt exists. -/
def find_champion (store : List PromptRow) (run : ℕ) : Option PromptRow :=
  match trackPrompts store run with
  | [] => none
  | p :: ps =>
      some (ps.foldl (fun acc q => if championKey acc < championKey q then q else acc) p)

/-- `ReportingStage._build_refinement_tracks`: for each track id below
`top_m_refine`, the track's candidates ordered by iteration; the final
prompt is the LAST element (the source comment: "final_prompt should be the
LAST iteration, not the best scoring one"). -/
def build_refinement_tracks (store : List PromptRow) (run topM : ℕ) : List TrackResult :=
  (List.range topM).filterMap (fun t =>
    match PromptRepo.get_by_track store run t with
    | [] => none
    | p :: ps =>
        some { trackId := t
               initialPrompt := p
               finalPrompt := (p :: ps).getLast (List.cons_ne_nil p ps)
               iterations := p :: ps
               scoreProgression := (p :: ps).map championKey
               improvement :=
                 championKey ((p :: ps).getLast (List.cons_ne_nil p ps)) - championKey p })

/-! ## Refinement tracks (`optimizer/stages/refinement.py`) -/

/-- The configuration knobs consumed by the refinement stage
(`OptimizerConfig`). -/
structure RefineConfig where
  maxIterationsPerTrack : ℕ
  convergenceThreshold : ℚ
  earlyStoppingPatience : ℕ

/-- `RefinementStage._check_improvement`:
`improvement >= self.config.convergence_threshold`. -/
def check_improvement (cfg : RefineConfig) (improvement : ℚ) : Bool :=
  decide (cfg.convergenceThreshold ≤ improvement)

/-- Trace record of one refinement iteration (what the loop body computes
and logs). -/
structure IterRecord where
  iteration : ℕ
  newScore : ℚ
  improvement : ℚ
  accepted : Bool
  bestAfter : ℚ
  noImpAfter : ℕ
deriving DecidableEq

/-- Mutable state of `_refinement_track`'s loop.  In the source
`current_prompt` and `parent_prompt_id` always designate the same candidate
(both are updated exactly on acceptance), so a single id suffices. -/
structure TrackState where
  best : ℚ
  noImp : ℕ
  parentId : PromptId
  store : List PromptRow

/-- The candidate built by `_create_refined_prompt` combined with the parent
linkage that `_save_refined_prompt` sets before saving. -/
def refined_prompt_row (run t i : ℕ) (text : String) (parent : PromptId) : PromptRow :=
  { id := PromptId.refinedAt t i
    runId := run
    promptText := text
    stage := Stage.refined
    averageScore := none
    iteration := i
    trackId := some t
    parentPromptId := some parent }

/-- One iteration of `_refinement_track`'s loop body: save the refined
candidate (before evaluating), evaluate it (`newScore`), write the score
back to the database, compute
`improvement = (new_score - best_score) / best_score if best_score > 0 else 0`
and accept or reject by `_check_improvement`. -/
def refine_step (cfg : RefineConfig) (run t : ℕ) (text : String) (newScore : ℚ) (i : ℕ)
    (st : TrackState) : IterRecord × TrackState :=
  let row := refined_prompt_row run t i text st.parentId
  let store1 := PromptRepo.save st.store row
  let store2 := store1.map (fun q =>
    if q.id = row.id then { q with averageScore := some newScore } else q)
  let improvement : ℚ := if 0 < st.best then (newScore - st.best) / st.best else 0
  if check_improvement cfg improvement then
    ({ iteration := i, newScore := newScore, improvement := improvement, accepted := true,
       bestAfter := newScore, noImpAfter := 0 },
     { best := newScore, noImp := 0, parentId := row.id, store := store2 })
  else
    ({ iteration := i, newScore := newScore, improvement := improvement, accepted := false,
       bestAfter := st.best, noImpAfter := st.noImp + 1 },
     { best := st.best, noImp := st.noImp + 1, parentId := st.parentId, store := store2 })

/-- The loop `for iteration in range(1, max_iterations_per_track + 1)` with
the early-stopping break `no_improvement_count >= early_stopping_patience`.
`texts`/`scores` are the deterministic oracle outputs (refined prompt text
and evaluated score of iteration `i`); `i` is the next iteration number and
the fuel is the number of loop indices left. -/
def refine_loop (cfg : RefineConfig) (run t : ℕ) (texts : ℕ → String) (scores : ℕ → ℚ) :
    ℕ → ℕ → TrackState → List IterRecord × TrackState
  | _, 0, st => ([], st)
  | i, fuel + 1, st =>
      let step := refine_step cfg run t (texts i) (scores i) i st
      if cfg.earlyStoppingPatience ≤ step.2.noImp then
        ([step.1], step.2)
      else
        let rest := refine_loop cfg run t texts scores (i + 1) fuel step.2
        (step.1 :: rest.1, rest.2)

/-- `RefinementStage._refinement_track`: set the track id on the seed
candidate and save it (the converter `to_db` writes `run_id` and leaves
`parent_prompt_id` NULL), seed `best_score` with
`current_prompt.average_score or 0`, then run the refinement loop. -/
def run_track (cfg : RefineConfig) (run t : ℕ) (texts : ℕ → String) (scores : ℕ → ℚ)
    (initialPrompt : PromptRow) (store0 : List PromptRow) : List IterRecord × TrackState :=
  let ip := { initialPrompt with
              runId := run
              trackId := some t
              parentPromptId := (none : Option PromptId) }
  let store1 := PromptRepo.save store0 ip
  refine_loop cfg run t texts scores 1 cfg.maxIterationsPerTrack
    { best := ip.averageScore.getD 0, noImp := 0, parentId := ip.id, store := store1 }

/-- Specification-side decision sequence: `(best_score,
no_improvement_count)` after `n` iterations of the Decide rule, with no
iteration cap and no patience cutoff. -/
def decide_state (cfg : RefineConfig) (scores : ℕ → ℚ) (best0 : ℚ) : ℕ → ℚ × ℕ
  | 0 => (best0, 0)
  | n + 1 =>
      let s := decide_state cfg scores best0 n
      let ns := scores (n + 1)
      let improvement : ℚ := if 0 < s.1 then (ns - s.1) / s.1 else 0
      if check_improvement cfg improvement then (ns, 0) else (s.1, s.2 + 1)

/-! ## Evaluation engine (`optimizer/utils/`) -/

/-- Per-dimension scoring weights (`config.scoring_weights`). -/
structure Weights where
  functionality : ℚ
  safety : ℚ
  consistency : ℚ
  edgeCaseHandling : ℚ
deriving DecidableEq

/-- An evaluation score (`EvaluationScore` in `types.py`). -/
structure EvalScore where
  functionality : ℕ
  safety : ℕ
  consistency : ℕ
  edgeCaseHandling : ℕ
  reasoning : String
  overall : ℚ
deriving DecidableEq

/-- `EvaluationScore.calculate_overall`: the weighted sum of the four
sub-scores. -/
def calculate_overall (functionality safety consistency edgeCaseHandling : ℕ)
    (reasoning : String) (w : Weights) : EvalScore :=
  { functionality := functionality
    safety := safety
    consistency := consistency
    edgeCaseHandling := edgeCaseHandling
    reasoning := reasoning
    overall := (functionality : ℚ) * w.functionality + (safety : ℚ) * w.safety +
      (consistency : ℚ) * w.consistency + (edgeCaseHandling : ℚ) * w.edgeCaseHandling }

/-- `aggregate_prompt_score` (`optimizer/utils/score_calculator.py`):
arithmetic mean of the `overall` scores, `0.0` for an empty list. -/
def aggregate_prompt_score (evaluations : List EvalScore) : ℚ :=
  if evaluations.isEmpty then 0
  else (evaluations.map (fun e => e.overall)).sum / evaluations.length

/-- A test case row, reduced to the fields evaluation reads. -/
structure TestCaseRow where
  id : String
  inputMessage : String
deriving DecidableEq

/-- Structured output of the judge oracle
(`EvaluationOutput` of the evaluator agent). -/
structure JudgeOutput where
  functionality : ℕ
  safety : ℕ
  consistency : ℕ
  edgeCaseHandling : ℕ
  reasoning : String
deriving DecidableEq

/-- The deterministic external oracle: the target model
(`test_target_model`) and the judge (evaluator agent). -/
structure Oracle where
  respond : String → String → String
  judge : TestCaseRow → String → JudgeOutput

/-- A persisted evaluation row (`Evaluation` in `storage/models.py`,
written by `EvaluationConverter.to_db` + `EvaluationRepository.save`). -/
structure EvalRow where
  testCaseId : String
  promptId : PromptId
  modelResponse : String
  evaluation : EvalScore
deriving DecidableEq

/-- `_evaluate_test_impl` in `evaluate_prompt`: query the target model,
judge the response, compute the weighted overall, and build the persisted
`TestResult` row. -/
def evaluate_single_test (o : Oracle) (w : Weights) (prompt : PromptRow)
    (test : TestCaseRow) : EvalScore × EvalRow :=
  let response := o.respond prompt.promptText test.inputMessage
  let out := o.judge test response
  let evaluation := calculate_overall out.functionality out.safety out.consistency
    out.edgeCaseHandling out.reasoning w
  (evaluation,
   { testCaseId := test.id, promptId := prompt.id, modelResponse := response,
     evaluation := evaluation })

/-- `evaluate_prompt` with `parallel=False`: evaluate the tests one at a
time, persisting one row per test in test order, and aggregate. -/
def evaluate_prompt_sequential (o : Oracle) (w : Weights) (prompt : PromptRow)
    (tests : List TestCaseRow) (store : List EvalRow) : ℚ × List EvalRow :=
  let evals := tests.map (fun test => (evaluate_single_test o w prompt test).1)
  let rows := tests.map (fun test => (evaluate_single_test o w prompt test).2)
  (aggregate_prompt_score evals, store ++ rows)

/-- `evaluate_prompt` with `parallel=True`: `asyncio.gather` collects the
evaluations in task (test) order, while the rows are persisted in the order
the concurrent tasks complete — an arbitrary permutation `completionOrder`
of `tests`. -/
def evaluate_prompt_parallel (o : Oracle) (w : Weights) (prompt : PromptRow)
    (tests completionOrder : List TestCaseRow) (store : List EvalRow) : ℚ × List EvalRow :=
  let evals := tests.map (fun test => (evaluate_single_test o w prompt test).1)
  let rows := completionOrder.map (fun test => (evaluate_single_test o w prompt test).2)
  (aggregate_prompt_score evals, store ++ rows)

/-! ## Run repository (`storage/repositories/run_repository.py`) -/

/-- Run status (`optimization_runs.status`). -/
inductive RunStatus where
  | running
  | completed
  | failed
deriving DecidableEq

/-- A persisted optimization-run row (`OptimizationRun` in
`storage/models.py`); timestamps are modelled as rationals. -/
structure RunRow where
  id : ℕ
  status : RunStatus
  championPromptId : Option PromptId
  totalTestsRun : Option ℕ
  totalTimeSeconds : Option ℚ
  completedAt : Option ℚ
deriving DecidableEq

namespace RunRepo

/-- `RunRepository.get_by_id`. -/
def get_by_id (runs : List RunRow) (runId : ℕ) : Option RunRow :=
  runs.find? (fun r => decide (r.id = runId))

/-- `RunRepository.create`: insert a fresh run with status `running` and no
completion fields. -/
def create (runs : List RunRow) (newId : ℕ) : List RunRow :=
  runs ++ [{ id := newId, status := RunStatus.running, championPromptId := none,
             totalTestsRun := none, totalTimeSeconds := none, completedAt := none }]

/-- `RunRepository.complete`: look the run up by id; when found, set the
completion timestamp, champion id, totals and status `completed`; when the
id does not resolve, do nothing (the `if run:` guard). -/
def complete (runs : List RunRow) (runId : ℕ) (championPromptId : PromptId)
    (totalTests : ℕ) (totalTime now : ℚ) : List RunRow :=
  match get_by_id runs runId with
  | none => runs
  | some _ =>
      runs.map (fun r =>
        if r.id = runId then
          { r with completedAt := some now, championPromptId := some championPromptId,
                   totalTestsRun := some totalTests, totalTimeSeconds := some totalTime,
                   status := RunStatus.completed }
        else r)

end RunRepo

/-! ## Orchestrator (`optimizer/orchestrator.py`) -/

/-- The whole persisted state of a run: the run table plus the tables the
pipeline stages write. -/
structure Store where
  runs : List RunRow
  prompts : List PromptRow
  testCases : List TestCaseRow
  evals : List EvalRow

/-- A single persistence effect a pipeline stage can perform.  No stage
writes the run row — only the orchestrator/reporting path calls
`RunRepository.complete`. -/
inductive WriteOp where
  | writePrompt : PromptRow → WriteOp
  | writeTestCase : TestCaseRow → WriteOp
  | writeEval : EvalRow → WriteOp

/-- Apply one stage write to the store. -/
def applyWrite (st : Store) : WriteOp → Store
  | WriteOp.writePrompt p => { st with prompts := PromptRepo.save st.prompts p }
  | WriteOp.writeTestCase t => { st with testCases := st.testCases ++ [t] }
  | WriteOp.writeEval e => { st with evals := st.evals ++ [e] }

/-- Error taxonomy of §7: oracle failure, configuration error, invariant
violation (e.g. `_find_champion`'s `ValueError`). -/
inductive StageErr where
  | oracleFailure
  | configError
  | invariantViolation
deriving DecidableEq

/-- One stage execution, abstracted to the persistence effects it performs
before either finishing or raising. -/
structure StageRun where
  writes : List WriteOp
  failure : Option StageErr

/-- Run one stage: apply its writes, then surface its failure, if any. -/
def run_stage (s : StageRun) (st : Store) : Store × Option StageErr :=
  (s.writes.foldl applyWrite st, s.failure)

/-- The orchestrator's stage loop (`for idx, stage in enumerate(self.stages)`):
stages run in order with no local retry; the first error aborts the rest. -/
def run_stages : List StageRun → Store → Store × Option StageErr
  | [], st => (st, none)
  | s :: rest, st =>
      let r := run_stage s st
      match r.2 with
      | some e => (r.1, some e)
      | none => run_stages rest r.1

/-- `PromptOptimizer.optimize`: create the run row, execute every stage in
order (an uncaught stage error propagates out), and only after all stages
have finished find the champion and mark the run completed with champion
id, total tests and elapsed time (`RunRepository.complete`). -/
def optimize (stages : List StageRun) (runId totalTests : ℕ) (totalTime : ℚ)
    (st0 : Store) : Store × Option StageErr :=
  let st1 := { st0 with runs := RunRepo.create st0.runs runId }
  let res := run_stages stages st1
  match res.2 with
  | some e => (res.1, some e)
  | none =>
      match find_champion res.1.prompts runId with
      | none => (res.1, some StageErr.invariantViolation)
      | some champ =>
          ({ res.1 with
             runs := RunRepo.complete res.1.runs runId champ.id totalTests totalTime totalTime },
           none)

/-! ## Concurrency structure (`asyncio` fan-out of oracle calls) -/

/-- Shape of the test-case-level oracle calls a stage invocation issues:
leaves are single oracle calls tagged with whether they are admitted through
the stage's shared semaphore; `seq2` runs its parts one after the other,
`par2` concurrently (`asyncio.gather`). -/
inductive CallTree where
  | done
  | oracleCall : Bool → CallTree
  | seq2 : CallTree → CallTree → CallTree
  | par2 : CallTree → CallTree → CallTree
deriving DecidableEq

/-- Sequential composition of a list of call trees. -/
def seqAll (l : List CallTree) : CallTree :=
  l.foldr CallTree.seq2 CallTree.done

/-- Concurrent composition of a list of call trees (`asyncio.gather`). -/
def parAll (l : List CallTree) : CallTree :=
  l.foldr CallTree.par2 CallTree.done

/-- Worst-case number of simultaneously outstanding UNGUARDED oracle calls:
parallel parts add up, sequential parts never overlap. -/
def unguardedPeak : CallTree → ℕ
  | CallTree.done => 0
  | CallTree.oracleCall g => if g then 0 else 1
  | CallTree.seq2 a b => max (unguardedPeak a) (unguardedPeak b)
  | CallTree.par2 a b => unguardedPeak a + unguardedPeak b

/-- Worst-case number of semaphore-guarded calls that are simultaneously
READY to run (before the semaphore caps them). -/
def guardedPeak : CallTree → ℕ
  | CallTree.done => 0
  | CallTree.oracleCall g => if g then 1 else 0
  | CallTree.seq2 a b => max (guardedPeak a) (guardedPeak b)
  | CallTree.par2 a b => guardedPeak a + guardedPeak b

/-- Worst-case number of oracle calls outstanding at one moment, with a
shared counting semaphore of size `semSize` admitting the guarded calls:
unguarded calls are unrestricted, guarded ones are capped by the
semaphore. -/
def maxOutstanding (semSize : ℕ) (t : CallTree) : ℕ :=
  unguardedPeak t + min (guardedPeak t) semSize

/-- One test evaluation (`_evaluate_test_impl`) makes two oracle calls in
sequence — target-model response, then judge — both inside the
`async with semaphore` block when a semaphore is supplied. -/
def single_test_calls (guarded : Bool) : CallTree :=
  CallTree.seq2 (CallTree.oracleCall guarded) (CallTree.oracleCall guarded)

/-- The call shape of `evaluate_prompt`: `asyncio.gather` over the tests
when `parallel=True`, a plain loop when `parallel=False`; calls are guarded
iff a semaphore was passed (NOTE the source, contrary to its docstring,
creates no local semaphore when `semaphore is None`). -/
def evaluate_prompt_calls (parallel guarded : Bool) (numTests : ℕ) : CallTree :=
  if parallel then parAll (List.replicate numTests (single_test_calls guarded))
  else seqAll (List.replicate numTests (single_test_calls guarded))

/-- Evaluation calls of one refinement track: one full-suite evaluation per
iteration, always invoked with `parallel=True` and the semaphore the stage
passed down. -/
def refinement_track_calls (guarded : Bool) (iterations numTests : ℕ) : CallTree :=
  seqAll (List.replicate iterations (evaluate_prompt_calls true guarded numTests))

/-- `RefinementStage._run_async`: all tracks gathered concurrently, sharing
one `asyncio.Semaphore(max_concurrent_evaluations)`. -/
def refinement_stage_async_calls (numTracks iterations numTests : ℕ) : CallTree :=
  parAll (List.replicate numTracks (refinement_track_calls true iterations numTests))

/-- `RefinementStage._run_sync`: tracks run one after the other with
`semaphore=None` — yet each track still calls `evaluate_prompt` with
`parallel=True`, so its per-iteration test fan-out is concurrent and
unguarded. -/
def refinement_stage_sync_calls (numTracks iterations numTests : ℕ) : CallTree :=
  seqAll (List.replicate numTracks (refinement_track_calls false iterations numTests))

/-- `EvaluatePromptsStage._run_async`: all prompts gathered concurrently,
every test evaluation admitted through one shared semaphore. -/
def evaluate_stage_async_calls (numPrompts numTests : ℕ) : CallTree :=
  parAll (List.replicate numPrompts (evaluate_prompt_calls true true numTests))

/-- `EvaluatePromptsStage._run_sync`: prompts evaluated one at a time with
`parallel=False` and no semaphore. -/
def evaluate_stage_sync_calls (numPrompts numTests : ℕ) : CallTree :=
  seqAll (List.replicate numPrompts (evaluate_prompt_calls false false numTests))

/-! ## Stage-level execution paths (`BaseStage.run` dispatching to
`_run_async` or `_run_sync`) -/

/-- `EvaluatePromptsStage._update_and_save_prompt_scores`, main path (the
comparison-only branch for an original prompt outside the top-K keeps the
stage and is identical in both modes — it depends only on the scores, which
the two modes are shown below to share): zip the prompts with their scores
`strict=True`, set `average_score`, advance `stage`, and upsert each row in
prompt order. -/
def update_and_save_prompt_scores (stageName : Stage) (pstore : List PromptRow)
    (prompts : List PromptRow) (scores : List ℚ) : List PromptRow :=
  (prompts.zip scores).foldl
    (fun st pr => PromptRepo.save st { pr.1 with averageScore := some pr.2, stage := stageName })
    pstore

/-- `EvaluatePromptsStage._run_sync`: evaluate each prompt in order with
`evaluate_prompt(parallel=False, semaphore=None)`, collecting the scores in
a list, then write the scores back. -/
def evaluate_stage_sequential (o : Oracle) (w : Weights) (stageName : Stage)
    (prompts : List PromptRow) (tests : List TestCaseRow)
    (pstore : List PromptRow) (estore : List EvalRow) : List PromptRow × List EvalRow :=
  let res := prompts.foldl
    (fun (acc : List EvalRow × List ℚ) p =>
      let r := evaluate_prompt_sequential o w p tests acc.1
      (r.2, acc.2 ++ [r.1]))
    (estore, ([] : List ℚ))
  (update_and_save_prompt_scores stageName pstore prompts res.2, res.1)

/-- `EvaluatePromptsStage._run_async`: `asyncio.gather` over the per-prompt
`evaluate_prompt(parallel=True, semaphore=shared)` tasks returns the scores
in task (prompt) order; the evaluation rows of the prompts × tests fan-out
are committed in completion order — an arbitrary sequence `arrival` of
(prompt, test) pairs, constrained by the caller to be a permutation of the
fan-out; the score write-back then runs sequentially after the gather. -/
def evaluate_stage_parallel (o : Oracle) (w : Weights) (stageName : Stage)
    (prompts : List PromptRow) (tests : List TestCaseRow)
    (arrival : List (PromptRow × TestCaseRow))
    (pstore : List PromptRow) (estore : List EvalRow) : List PromptRow × List EvalRow :=
  (update_and_save_prompt_scores stageName pstore prompts
    (prompts.map (fun p =>
      aggregate_prompt_score (tests.map (fun t => (evaluate_single_test o w p t).1)))),
   estore ++ arrival.map (fun pt => (evaluate_single_test o w pt.1 pt.2).2))

/-- Apply a sequence of persistence effects in order. -/
def applyWrites (st : Store) (ws : List WriteOp) : Store :=
  ws.foldl applyWrite st

/-- The prompt row a write upserts, if any (its `session.merge` primary
key); test-case and evaluation writes are plain inserts into append-only
tables. -/
def promptTarget : WriteOp → Option PromptId
  | WriteOp.writePrompt p => some p.id
  | WriteOp.writeTestCase _ => none
  | WriteOp.writeEval _ => none

/-- Two writes that commute up to row order: they never upsert the same
prompt row (inserts into the append-only tables always commute up to
order). -/
def DisjointWrite (w v : WriteOp) : Prop :=
  promptTarget w = none ∨ promptTarget v = none ∨ promptTarget w ≠ promptTarget v

instance (w v : WriteOp) : Decidable (DisjointWrite w v) := by
  unfold DisjointWrite
  infer_instance

/-- All writes of the first stream are disjoint from all writes of the
second. -/
def WriteDisjoint (ws₁ ws₂ : List WriteOp) : Prop :=
  ∀ w₁ ∈ ws₁, ∀ w₂ ∈ ws₂, DisjointWrite w₁ w₂

instance : DecidableRel WriteDisjoint := fun ws₁ ws₂ => by
  unfold WriteDisjoint
  infer_instance

/-- `ws` is an order-preserving interleaving of the write streams `ws₁` and
`ws₂`: the cooperative asyncio scheduler can suspend a task only at an
await point, so each task's own writes stay in program order while the two
streams shuffle arbitrarily. -/
inductive Interleave : List WriteOp → List WriteOp → List WriteOp → Prop where
  | nil : Interleave [] [] []
  | left : ∀ (w : WriteOp) {ws₁ ws₂ ws},
      Interleave ws₁ ws₂ ws → Interleave (w :: ws₁) ws₂ (w :: ws)
  | right : ∀ (w : WriteOp) {ws₁ ws₂ ws},
      Interleave ws₁ ws₂ ws → Interleave ws₁ (w :: ws₂) (w :: ws)

/-- `ws` is an interleaving of the per-task write streams `wss`
(`asyncio.gather(*tasks)`).  This models `RefinementStage._run_async`,
whose gathered tracks have interleaving-independent write streams: a track
reads only the immutable test suite, its own candidates and their own
evaluations (`get_by_prompt`/`get_by_id` on ids only it writes), and track
`t` upserts only its seed row and its `track{t}_iter{i}` rows — so distinct
tracks' streams are pairwise prompt-disjoint. -/
inductive InterleaveMany : List (List WriteOp) → List WriteOp → Prop where
  | nil : InterleaveMany [] []
  | cons : ∀ {ws₁ rest ws wss},
      Interleave ws₁ rest ws → InterleaveMany wss rest → InterleaveMany (ws₁ :: wss) ws

/-- Agreement of final persisted state "apart from wall-clock time": the
run table is equal, and each append-only table is equal as a multiset (row
insertion order within a table reflects only completion timing). -/
def StoreEquiv (st st' : Store) : Prop :=
  st.runs = st'.runs ∧ st.prompts.Perm st'.prompts
    ∧ st.testCases.Perm st'.testCases ∧ st.evals.Perm st'.evals

/-! ## Concrete instances used by counterexamples and witnesses -/

/-- A track-0 seed candidate as it stands after rigorous evaluation. -/
def cexInitial : PromptRow :=
  { id := PromptId.named ("A"), runId := 1, promptText := "p", stage := Stage.rigorous,
    averageScore := some 8, iteration := 0, trackId := some 0, parentPromptId := none }

/-- Track 0, iteration 1: scored 9 (accepted). -/
def cexIter1 : PromptRow :=
  { id := PromptId.refinedAt 0 1, runId := 1, promptText := "p1", stage := Stage.refined,
    averageScore := some 9, iteration := 1, trackId := some 0,
    parentPromptId := some (PromptId.named ("A")) }

/-- Track 0, iteration 2: scored 7 (a regression; still persisted). -/
def cexIter2 : PromptRow :=
  { id := PromptId.refinedAt 0 2, runId := 1, promptText := "p2", stage := Stage.refined,
    averageScore := some 7, iteration := 2, trackId := some 0,
    parentPromptId := some (PromptId.refinedAt 0 1) }

/-- A one-track store in which the last iteration is not the best-scoring
one. -/
def cexStore : List PromptRow := [cexInitial, cexIter1, cexIter2]

/-- A refinement configuration with the documented default-style threshold
`0.02`. -/
def c2Cfg : RefineConfig :=
  { maxIterationsPerTrack := 3, convergenceThreshold := 1 / 50, earlyStoppingPatience := 5 }

/-- A track state whose best score is `0` (e.g. a seed candidate that scored
zero on every rigorous test). -/
def c2State : TrackState :=
  { best := 0, noImp := 0, parentId := PromptId.named ("P0"), store := [] }

/-- A `quick_filter` candidate with a NULL `average_score`. -/
def c4Row : PromptRow :=
  { id := PromptId.named ("u1"), runId := 1, promptText := "p", stage := Stage.quick_filter,
    averageScore := none, iteration := 0, trackId := none, parentPromptId := none }

/-- Patience-1 configuration demanding a 100% relative improvement. -/
def w3Cfg : RefineConfig :=
  { maxIterationsPerTrack := 2, convergenceThreshold := 1, earlyStoppingPatience := 1 }

/-- A seed candidate without a rigorous score yet (`average_score or 0`
seeds `best = 0`). -/
def w3Prompt : PromptRow :=
  { id := PromptId.named ("I"), runId := 1, promptText := "p", stage := Stage.rigorous,
    averageScore := none, iteration := 0, trackId := none, parentPromptId := none }

/-- Deterministic refiner-text oracle for witnesses. -/
def wTexts : ℕ → String := fun _ => "w"

/-- Deterministic score oracle for witnesses: every refined candidate
evaluates to 5. -/
def wScores : ℕ → ℚ := fun _ => 5

/-- Two distinct test cases. -/
def w6t1 : TestCaseRow := { id := "t1", inputMessage := "m1" }

/-- Second test case. -/
def w6t2 : TestCaseRow := { id := "t2", inputMessage := "m2" }

/-- A deterministic oracle stub: echoes the input, judges everything
`(8, 9, 7, 6)`. -/
def w6Oracle : Oracle :=
  { respond := fun _ msg => msg
    judge := fun _ _ =>
      { functionality := 8, safety := 9, consistency := 7, edgeCaseHandling := 6,
        reasoning := "ok" } }

/-- Equal scoring weights summing to 1. -/
def w6W : Weights :=
  { functionality := 1 / 4, safety := 1 / 4, consistency := 1 / 4, edgeCaseHandling := 1 / 4 }

/-- A prompt under evaluation. -/
def w6Prompt : PromptRow :=
  { id := PromptId.named ("E"), runId := 1, promptText := "sys", stage := Stage.initial,
    averageScore := none, iteration := 0, trackId := none, parentPromptId := none }

/-- A pipeline consisting of one stage that performs no writes and raises an
oracle failure. -/
def w9Stages : List StageRun :=
  [{ writes := [], failure := some StageErr.oracleFailure }]

/-- The empty persisted state. -/
def w9Store : Store :=
  { runs := [], prompts := [], testCases := [], evals := [] }

/-! ## Helper lemmas -/

theorem mem_save_self (store : List PromptRow) (p : PromptRow) :
    p ∈ PromptRepo.save store p := by
  unfold PromptRepo.save
  by_cases h : store.any (fun q => decide (q.id = p.id)) = true
  · simp only [h, if_true]
    obtain ⟨q, hq, hid⟩ := List.any_eq_true.mp h
    exact List.mem_map.mpr ⟨q, hq, by simp [of_decide_eq_true hid]⟩
  · simp [h]

theorem mem_of_mem_save (store : List PromptRow) (p q : PromptRow)
    (hq : q ∈ PromptRepo.save store p) : q = p ∨ q ∈ store := by
  unfold PromptRepo.save at hq
  by_cases h : store.any (fun q => decide (q.id = p.id)) = true
  · simp only [h, if_true] at hq
    obtain ⟨r, hr, hrq⟩ := List.mem_map.mp hq
    by_cases hid : r.id = p.id
    · simp [hid] at hrq
      exact Or.inl hrq.symm
    · simp [hid] at hrq
      exact Or.inr (hrq ▸ hr)
  · simp only [h, if_false, Bool.false_eq_true] at hq
    rcases List.mem_append.mp hq with h1 | h1
    · exact Or.inr h1
    · exact Or.inl (by simpa using h1)

theorem save_of_fresh (store : List PromptRow) (p : PromptRow)
    (h : ∀ q ∈ store, q.id ≠ p.id) : PromptRepo.save store p = store ++ [p] := by
  unfold PromptRepo.save
  have hany : store.any (fun q => decide (q.id = p.id)) = false := by
    rw [List.any_eq_false]
    intro q hq
    simpa using h q hq
  simp [hany]

/-! ## C10 -/

/-- C10: completing a run whose id does not resolve to any stored run is a
no-op — no row is created or modified and no error is raised; the
completion fields are written only when the run exists. -/
theorem complete_nonexistent_run_noop (runs : List RunRow) (runId : ℕ) (c : PromptId)
    (tt : ℕ) (time now : ℚ) (h : RunRepo.get_by_id runs runId = none) :
    RunRepo.complete runs runId c tt time now = runs := by
  unfold RunRepo.complete
  rw [h]

/-- C10 witness: completing run 7 against an empty run table returns the
table unchanged. -/
theorem complete_nonexistent_run_noop_witness :
    RunRepo.complete [] 7 (PromptId.named ("X")) 3 5 5 = [] :=
  complete_nonexistent_run_noop [] 7 (PromptId.named ("X")) 3 5 5 rfl

/-! ## C7 -/

/-- C7: with `max_concurrent_evaluations = 2` and 5 rigorous tests, the
refinement stage in sequential mode (`RefinementStage._run_sync`, which
passes `semaphore=None` while `evaluate_prompt` still uses `parallel=True`)
can have 5 oracle calls outstanding at once — none of them admitted through
any semaphore — exceeding the claimed bound; the async paths respect it. -/
theorem refinement_sync_exceeds_concurrency_bound :
    maxOutstanding 2 (refinement_stage_sync_calls 1 3 5) = 5
    ∧ 2 < maxOutstanding 2 (refinement_stage_sync_calls 1 3 5)
    ∧ guardedPeak (refinement_stage_sync_calls 1 3 5) = 0
    ∧ maxOutstanding 2 (refinement_stage_async_calls 3 3 5) ≤ 2
    ∧ maxOutstanding 2 (evaluate_stage_async_calls 4 5) ≤ 2
    ∧ maxOutstanding 2 (evaluate_stage_sync_calls 4 5) ≤ 2 := by
  decide

/-! ## C6 helper lemmas: commuting disjoint persistence effects -/

theorem perm_any_eq {α : Type} {l₁ l₂ : List α} (h : l₁.Perm l₂) (f : α → Bool) :
    l₁.any f = l₂.any f := by
  cases hb : l₂.any f
  · rw [List.any_eq_false] at hb ⊢
    intro x hx
    exact hb x (h.subset hx)
  · rw [List.any_eq_true] at hb ⊢
    obtain ⟨x, hx, hfx⟩ := hb
    exact ⟨x, h.symm.subset hx, hfx⟩

theorem any_map_of_pointwise {α : Type} (l : List α) (f : α → α) (p : α → Bool)
    (h : ∀ a ∈ l, p (f a) = p a) : (l.map f).any p = l.any p := by
  induction l with
  | nil => rfl
  | cons a l ih =>
    simp only [List.map_cons, List.any_cons]
    rw [h a (List.mem_cons_self a l), ih (fun b hb => h b (List.mem_cons_of_mem a hb))]

theorem save_perm_congr {st st' : List PromptRow} (hp : st.Perm st') (p : PromptRow) :
    (PromptRepo.save st p).Perm (PromptRepo.save st' p) := by
  unfold PromptRepo.save
  have ha := perm_any_eq hp (fun q => decide (q.id = p.id))
  by_cases hb : st.any (fun q => decide (q.id = p.id)) = true
  · rw [if_pos hb, if_pos (ha ▸ hb)]
    exact hp.map _
  · rw [if_neg hb, if_neg (fun hc => hb (ha.symm ▸ hc))]
    exact hp.append_right [p]

theorem save_save_comm (st : List PromptRow) (p q : PromptRow) (hne : p.id ≠ q.id) :
    (PromptRepo.save (PromptRepo.save st p) q).Perm
      (PromptRepo.save (PromptRepo.save st q) p) := by
  have hPQ : ∀ r : PromptRow,
      decide ((if r.id = p.id then p else r).id = q.id) = decide (r.id = q.id) := by
    intro r
    by_cases h1 : r.id = p.id
    · rw [if_pos h1, h1]
    · rw [if_neg h1]
  have hQP : ∀ r : PromptRow,
      decide ((if r.id = q.id then q else r).id = p.id) = decide (r.id = p.id) := by
    intro r
    by_cases h1 : r.id = q.id
    · rw [if_pos h1, h1]
    · rw [if_neg h1]
  have hcomm : ∀ r : PromptRow,
      (if (if r.id = p.id then p else r).id = q.id then q else (if r.id = p.id then p else r))
        = (if (if r.id = q.id then q else r).id = p.id then p
            else (if r.id = q.id then q else r)) := by
    intro r
    by_cases h1 : r.id = p.id
    · rw [if_pos h1]
      by_cases h2 : r.id = q.id
      · exact absurd (h1 ▸ h2) hne
      · rw [if_neg h2, if_pos h1, if_neg hne]
    · rw [if_neg h1]
      by_cases h2 : r.id = q.id
      · rw [if_pos h2, if_neg (Ne.symm hne)]
      · rw [if_neg h2, if_neg h1]
  unfold PromptRepo.save
  by_cases hA : st.any (fun r => decide (r.id = p.id)) = true
    <;> by_cases hB : st.any (fun r => decide (r.id = q.id)) = true
  · rw [if_pos hA, if_pos hB,
      any_map_of_pointwise st _ _ (fun r _ => hPQ r),
      any_map_of_pointwise st _ _ (fun r _ => hQP r),
      if_pos hB, if_pos hA, List.map_map, List.map_map]
    simp only [Function.comp_def]
    rw [List.map_congr_left (fun r _ => hcomm r)]
  · rw [if_pos hA, if_neg hB,
      any_map_of_pointwise st _ _ (fun r _ => hPQ r), if_neg hB]
    have hq : (st ++ [q]).any (fun r => decide (r.id = p.id)) = true := by
      rw [List.any_append, hA, Bool.true_or]
    rw [if_pos hq]
    simp only [List.map_append, List.map_cons, List.map_nil, if_neg (Ne.symm hne)]
    exact List.Perm.refl _
  · rw [if_neg hA, if_pos hB,
      any_map_of_pointwise st _ _ (fun r _ => hQP r), if_neg hA]
    have hp2 : (st ++ [p]).any (fun r => decide (r.id = q.id)) = true := by
      rw [List.any_append, hB, Bool.true_or]
    rw [if_pos hp2]
    simp only [List.map_append, List.map_cons, List.map_nil, if_neg hne]
    exact List.Perm.refl _
  · rw [if_neg hA, if_neg hB]
    have h1 : ¬((st ++ [p]).any (fun r => decide (r.id = q.id)) = true) := by
      simp [List.any_append, Bool.eq_false_iff.mpr hB, hne]
    have h2 : ¬((st ++ [q]).any (fun r => decide (r.id = p.id)) = true) := by
      simp [List.any_append, Bool.eq_false_iff.mpr hA, Ne.symm hne]
    rw [if_neg h1, if_neg h2, List.append_assoc, List.append_assoc]
    exact List.Perm.append_left st (List.Perm.swap q p [])

theorem storeEquiv_refl (st : Store) : StoreEquiv st st :=
  ⟨rfl, List.Perm.refl _, List.Perm.refl _, List.Perm.refl _⟩

theorem storeEquiv_trans {a b c : Store} (h1 : StoreEquiv a b) (h2 : StoreEquiv b c) :
    StoreEquiv a c :=
  ⟨h1.1.trans h2.1, h1.2.1.trans h2.2.1, h1.2.2.1.trans h2.2.2.1, h1.2.2.2.trans h2.2.2.2⟩

theorem disjointWrite_symm {w v : WriteOp} (h : DisjointWrite w v) : DisjointWrite v w := by
  rcases h with h | h | h
  · exact Or.inr (Or.inl h)
  · exact Or.inl h
  · exact Or.inr (Or.inr (Ne.symm h))

theorem applyWrite_equiv {st st' : Store} (h : StoreEquiv st st') (w : WriteOp) :
    StoreEquiv (applyWrite st w) (applyWrite st' w) := by
  cases w with
  | writePrompt p => exact ⟨h.1, save_perm_congr h.2.1 p, h.2.2.1, h.2.2.2⟩
  | writeTestCase t => exact ⟨h.1, h.2.1, h.2.2.1.append_right [t], h.2.2.2⟩
  | writeEval e => exact ⟨h.1, h.2.1, h.2.2.1, h.2.2.2.append_right [e]⟩

theorem applyWrites_equiv {st st' : Store} (h : StoreEquiv st st') (ws : List WriteOp) :
    StoreEquiv (applyWrites st ws) (applyWrites st' ws) := by
  induction ws generalizing st st' with
  | nil => exact h
  | cons w ws ih => exact ih (applyWrite_equiv h w)

theorem applyWrites_append (st : Store) (a b : List WriteOp) :
    applyWrites st (a ++ b) = applyWrites (applyWrites st a) b := by
  simp [applyWrites]

theorem applyWrite_comm {w v : WriteOp} (hdis : DisjointWrite w v) (st : Store) :
    StoreEquiv (applyWrite (applyWrite st w) v) (applyWrite (applyWrite st v) w) := by
  cases w with
  | writePrompt p =>
    cases v with
    | writePrompt q =>
      have hne : p.id ≠ q.id := by
        rcases hdis with h | h | h
        · exact Option.noConfusion h
        · exact Option.noConfusion h
        · exact fun he => h (congrArg some he)
      exact ⟨rfl, save_save_comm st.prompts p q hne, List.Perm.refl _, List.Perm.refl _⟩
    | writeTestCase t => exact storeEquiv_refl _
    | writeEval e => exact storeEquiv_refl _
  | writeTestCase t =>
    cases v with
    | writePrompt q => exact storeEquiv_refl _
    | writeTestCase t2 =>
      refine ⟨rfl, List.Perm.refl _, ?_, List.Perm.refl _⟩
      show ((st.testCases ++ [t]) ++ [t2]).Perm ((st.testCases ++ [t2]) ++ [t])
      rw [List.append_assoc, List.append_assoc]
      exact List.Perm.append_left _ (List.Perm.swap t2 t [])
    | writeEval e => exact storeEquiv_refl _
  | writeEval e =>
    cases v with
    | writePrompt q => exact storeEquiv_refl _
    | writeTestCase t => exact storeEquiv_refl _
    | writeEval e2 =>
      refine ⟨rfl, List.Perm.refl _, List.Perm.refl _, ?_⟩
      show ((st.evals ++ [e]) ++ [e2]).Perm ((st.evals ++ [e2]) ++ [e])
      rw [List.append_assoc, List.append_assoc]
      exact List.Perm.append_left _ (List.Perm.swap e2 e [])

theorem applyWrites_write_comm (ws : List WriteOp) (w : WriteOp)
    (hdis : ∀ v ∈ ws, DisjointWrite w v) :
    ∀ st : Store,
      StoreEquiv (applyWrites (applyWrite st w) ws) (applyWrite (applyWrites st ws) w) := by
  induction ws with
  | nil => intro st; exact storeEquiv_refl _
  | cons v ws ih =>
    intro st
    have h1 : StoreEquiv (applyWrites (applyWrite (applyWrite st w) v) ws)
        (applyWrites (applyWrite (applyWrite st v) w) ws) :=
      applyWrites_equiv (applyWrite_comm (hdis v (List.mem_cons_self v ws)) st) ws
    have h2 := ih (fun u hu => hdis u (List.mem_cons_of_mem v hu)) (applyWrite st v)
    exact storeEquiv_trans h1 h2

theorem interleave_mem {ws₁ ws₂ ws : List WriteOp} (h : Interleave ws₁ ws₂ ws) :
    ∀ w ∈ ws, w ∈ ws₁ ∨ w ∈ ws₂ := by
  induction h with
  | nil => intro w hw; exact absurd hw (List.not_mem_nil w)
  | left v h ih =>
    intro w hw
    rcases List.mem_cons.mp hw with rfl | hm
    · exact Or.inl (List.mem_cons_self _ _)
    · exact (ih w hm).imp (List.mem_cons_of_mem v) id
  | right v h ih =>
    intro w hw
    rcases List.mem_cons.mp hw with rfl | hm
    · exact Or.inr (List.mem_cons_self _ _)
    · exact (ih w hm).imp id (List.mem_cons_of_mem v)

theorem interleave_apply {ws₁ ws₂ ws : List WriteOp} (h : Interleave ws₁ ws₂ ws)
    (hdis : WriteDisjoint ws₁ ws₂) :
    ∀ st : Store, StoreEquiv (applyWrites st ws) (applyWrites st (ws₁ ++ ws₂)) := by
  induction h with
  | nil => intro st; exact storeEquiv_refl _
  | @left v ws₁ ws₂ ws h ih =>
    intro st
    exact ih (fun a ha b hb => hdis a (List.mem_cons_of_mem v ha) b hb) (applyWrite st v)
  | @right v ws₁ ws₂ ws h ih =>
    intro st
    have h1 := ih (fun a ha b hb => hdis a ha b (List.mem_cons_of_mem v hb)) (applyWrite st v)
    have h2 := applyWrites_write_comm ws₁ v
      (fun u hu => disjointWrite_symm (hdis u hu v (List.mem_cons_self v ws₂))) st
    have h3 := applyWrites_equiv h2 ws₂
    refine storeEquiv_trans h1 ?_
    rw [applyWrites_append, applyWrites_append]
    exact h3

theorem interleaveMany_mem {wss : List (List WriteOp)} {ws : List WriteOp}
    (h : InterleaveMany wss ws) : ∀ w ∈ ws, ∃ l ∈ wss, w ∈ l := by
  induction h with
  | nil => intro w hw; exact absurd hw (List.not_mem_nil w)
  | @cons ws₁ rest ws wss hint hmany ih =>
    intro w hw
    rcases interleave_mem hint w hw with h1 | h2
    · exact ⟨ws₁, List.mem_cons_self _ _, h1⟩
    · obtain ⟨l, hl, hwl⟩ := ih w h2
      exact ⟨l, List.mem_cons_of_mem _ hl, hwl⟩

theorem interleaveMany_apply {wss : List (List WriteOp)} {ws : List WriteOp}
    (h : InterleaveMany wss ws) (hdis : List.Pairwise WriteDisjoint wss) :
    ∀ st : Store, StoreEquiv (applyWrites st ws) (applyWrites st wss.flatten) := by
  induction h with
  | nil => intro st; exact storeEquiv_refl _
  | @cons ws₁ rest ws wss hint hmany ih =>
    intro st
    have hd1 : WriteDisjoint ws₁ rest := by
      intro a ha b hb
      obtain ⟨l, hl, hbl⟩ := interleaveMany_mem hmany b hb
      exact (List.pairwise_cons.mp hdis).1 l hl a ha b hbl
    have h1 := interleave_apply hint hd1 st
    have h2 := ih (List.pairwise_cons.mp hdis).2 (applyWrites st ws₁)
    refine storeEquiv_trans h1 ?_
    rw [applyWrites_append, List.flatten_cons, applyWrites_append]
    exact h2

theorem eval_fold_spec (o : Oracle) (w : Weights) (tests : List TestCaseRow) :
    ∀ (prompts : List PromptRow) (estore : List EvalRow) (acc : List ℚ),
      prompts.foldl
          (fun (acc2 : List EvalRow × List ℚ) p =>
            let r := evaluate_prompt_sequential o w p tests acc2.1
            (r.2, acc2.2 ++ [r.1]))
          (estore, acc)
        = (estore ++ prompts.flatMap (fun p =>
              tests.map (fun t => (evaluate_single_test o w p t).2)),
           acc ++ prompts.map (fun p =>
              aggregate_prompt_score (tests.map (fun t => (evaluate_single_test o w p t).1)))) := by
  intro prompts
  induction prompts with
  | nil =>
    intro estore acc
    simp
  | cons p ps ih =>
    intro estore acc
    rw [List.foldl_cons]
    refine (ih (estore ++ tests.map (fun t => (evaluate_single_test o w p t).2))
      (acc ++ [aggregate_prompt_score
        (tests.map (fun t => (evaluate_single_test o w p t).1))])).trans ?_
    simp [List.flatMap_cons, List.append_assoc]

theorem evaluate_stage_sequential_spec (o : Oracle) (w : Weights) (stageName : Stage)
    (prompts : List PromptRow) (tests : List TestCaseRow)
    (pstore : List PromptRow) (estore : List EvalRow) :
    evaluate_stage_sequential o w stageName prompts tests pstore estore
      = (update_and_save_prompt_scores stageName pstore prompts
          (prompts.map (fun p =>
            aggregate_prompt_score (tests.map (fun t => (evaluate_single_test o w p t).1)))),
         estore ++ prompts.flatMap (fun p =>
            tests.map (fun t => (evaluate_single_test o w p t).2))) := by
  simp only [evaluate_stage_sequential]
  rw [eval_fold_spec]
  simp

/-! ## C6 -/

/-- C6: with a fixed deterministic oracle and the shared-semaphore
configuration, parallel and sequential execution persist the same final
state apart from timing: (a) a single `evaluate_prompt` call returns the
same average in both modes and persists the same evaluation rows up to row
order (rows land in completion order instead of test order);
(b) `EvaluatePromptsStage`'s async path (per-prompt scores gathered in task
order, evaluation rows committed in any completion order of the
prompts × tests fan-out) and its sync path write back exactly the same
prompt scores and stage labels — the prompt table is identical row for
row — and the same evaluation rows up to order; (c) for a stage whose
gathered tasks have pairwise prompt-disjoint, interleaving-independent
write streams — `RefinementStage`'s tracks: track `t` upserts only its
seed and its `track{t}_iter{i}` rows and reads only the immutable test
suite and its own rows — EVERY asyncio interleaving of the streams yields
the same final store as running the streams one after the other (the
sequential path), up to row order within the append-only tables. -/
theorem evaluation_mode_equivalence :
    (∀ (o : Oracle) (w : Weights) (prompt : PromptRow)
        (tests completionOrder : List TestCaseRow) (store : List EvalRow),
        completionOrder.Perm tests →
          (evaluate_prompt_parallel o w prompt tests completionOrder store).1
              = (evaluate_prompt_sequential o w prompt tests store).1
          ∧ ((evaluate_prompt_parallel o w prompt tests completionOrder store).2).Perm
              ((evaluate_prompt_sequential o w prompt tests store).2))
    ∧ (∀ (o : Oracle) (w : Weights) (stageName : Stage)
        (prompts : List PromptRow) (tests : List TestCaseRow)
        (arrival : List (PromptRow × TestCaseRow))
        (pstore : List PromptRow) (estore : List EvalRow),
        arrival.Perm (prompts.flatMap (fun p => tests.map (fun t => (p, t)))) →
          (evaluate_stage_parallel o w stageName prompts tests arrival pstore estore).1
              = (evaluate_stage_sequential o w stageName prompts tests pstore estore).1
          ∧ ((evaluate_stage_parallel o w stageName prompts tests arrival pstore estore).2).Perm
              ((evaluate_stage_sequential o w stageName prompts tests pstore estore).2))
    ∧ (∀ (wss : List (List WriteOp)) (ws : List WriteOp) (st0 : Store),
        InterleaveMany wss ws → List.Pairwise WriteDisjoint wss →
          StoreEquiv (applyWrites st0 ws) (applyWrites st0 wss.flatten)) := by
  refine ⟨?_, ?_, ?_⟩
  · intro o w prompt tests completionOrder store hperm
    exact ⟨rfl, List.Perm.append_left store
      (hperm.map (fun test => (evaluate_single_test o w prompt test).2))⟩
  · intro o w stageName prompts tests arrival pstore estore hperm
    rw [evaluate_stage_sequential_spec]
    constructor
    · rfl
    · have hmap : (prompts.flatMap (fun p => tests.map (fun t => (p, t)))).map
          (fun pt => (evaluate_single_test o w pt.1 pt.2).2)
          = prompts.flatMap (fun p =>
              tests.map (fun t => (evaluate_single_test o w p t).2)) := by
        rw [List.map_flatMap]
        simp only [List.map_map]
        rfl
      exact List.Perm.append_left estore
        (hmap ▸ hperm.map (fun pt => (evaluate_single_test o w pt.1 pt.2).2))
  · intro wss ws st0 hint hdis
    exact interleaveMany_apply hint hdis st0

/-- C6 witness: two tests completing in reversed order give the same score,
the same prompt write-back and a permutation of the same rows; and a
concrete two-task interleaving of prompt-disjoint write streams reaches the
same final store as the sequential composition. -/
theorem evaluation_mode_equivalence_witness :
    ((evaluate_prompt_parallel w6Oracle w6W w6Prompt [w6t1, w6t2] [w6t2, w6t1] []).2).Perm
        ((evaluate_prompt_sequential w6Oracle w6W w6Prompt [w6t1, w6t2] []).2)
    ∧ (evaluate_stage_parallel w6Oracle w6W Stage.quick_filter [w6Prompt] [w6t1, w6t2]
          [(w6Prompt, w6t2), (w6Prompt, w6t1)] [] []).1
        = (evaluate_stage_sequential w6Oracle w6W Stage.quick_filter [w6Prompt] [w6t1, w6t2]
            [] []).1
    ∧ StoreEquiv
        (applyWrites { runs := [], prompts := [], testCases := [], evals := [] }
          [WriteOp.writeTestCase w6t2, WriteOp.writeTestCase w6t1])
        (applyWrites { runs := [], prompts := [], testCases := [], evals := [] }
          ([[WriteOp.writeTestCase w6t1], [WriteOp.writeTestCase w6t2]]).flatten) := by
  refine ⟨?_, ?_, ?_⟩
  · exact (evaluation_mode_equivalence.1 w6Oracle w6W w6Prompt [w6t1, w6t2] [w6t2, w6t1] []
      (List.Perm.swap w6t1 w6t2 [])).2
  · exact (evaluation_mode_equivalence.2.1 w6Oracle w6W Stage.quick_filter [w6Prompt]
      [w6t1, w6t2] [(w6Prompt, w6t2), (w6Prompt, w6t1)] [] []
      (List.Perm.swap (w6Prompt, w6t1) (w6Prompt, w6t2) [])).1
  · exact evaluation_mode_equivalence.2.2
      [[WriteOp.writeTestCase w6t1], [WriteOp.writeTestCase w6t2]]
      [WriteOp.writeTestCase w6t2, WriteOp.writeTestCase w6t1]
      { runs := [], prompts := [], testCases := [], evals := [] }
      (InterleaveMany.cons
        (Interleave.right (WriteOp.writeTestCase w6t2)
          (Interleave.left (WriteOp.writeTestCase w6t1) Interleave.nil))
        (InterleaveMany.cons
          (Interleave.left (WriteOp.writeTestCase w6t2) Interleave.nil)
          InterleaveMany.nil))
      (by decide)

/-! ## C5 -/

/-- C5: `evaluate_prompt` returns the arithmetic mean of the per-test
overall scores, returns `0` on an empty test list, and the aggregate is
invariant under permutation of the evaluation results. -/
theorem evaluate_prompt_mean (o : Oracle) (w : Weights) (prompt : PromptRow)
    (store : List EvalRow) :
    (evaluate_prompt_sequential o w prompt [] store).1 = 0
    ∧ (∀ tests : List TestCaseRow, tests ≠ [] →
        (evaluate_prompt_sequential o w prompt tests store).1
          = (tests.map (fun test => (evaluate_single_test o w prompt test).1.overall)).sum
              / tests.length)
    ∧ (∀ g g' : List EvalScore, g.Perm g' →
        aggregate_prompt_score g = aggregate_prompt_score g') := by
  refine ⟨rfl, ?_, ?_⟩
  · intro tests h
    unfold evaluate_prompt_sequential aggregate_prompt_score
    simp only [List.map_map, List.isEmpty_iff, List.map_eq_nil_iff, h, if_false,
      List.length_map]
    rfl
  · intro g g' hp
    unfold aggregate_prompt_score
    have hlen := hp.length_eq
    have hsum : (g.map (fun e => e.overall)).sum = (g'.map (fun e => e.overall)).sum :=
      (hp.map (fun e => e.overall)).sum_eq
    have hemp : g.isEmpty = g'.isEmpty := by
      rcases g with _ | ⟨a, g⟩ <;> rcases g' with _ | ⟨b, g'⟩ <;> simp_all
    rw [hemp, hsum, hlen]

/-! ## C2 -/

/-- C2 counterexample: with `convergence_threshold = 0.02`, a refinement
iteration whose track has `best_score = 0` and which evaluates to the
strictly positive score 5 is NOT accepted — the source computes
`improvement = 0` and `0 >= 0.02` fails — contradicting the claim that a
zero `bestScore` iteration counts as improved whenever `newScore > 0`. -/
theorem zero_best_score_not_auto_improved :
    (0 : ℚ) < 5
    ∧ (refine_step c2Cfg 1 0 ("t") 5 1 c2State).1.improvement = 0
    ∧ (refine_step c2Cfg 1 0 ("t") 5 1 c2State).1.accepted = false
    ∧ (refine_step c2Cfg 1 0 ("t") 5 1 c2State).2.noImp = c2State.noImp + 1
    ∧ (refine_step c2Cfg 1 0 ("t") 5 1 c2State).2.best = c2State.best := by
  decide

/-- C2 (amended): in every Decide step,
`improvement = (newScore - bestScore) / bestScore` when `bestScore > 0` and
`improvement = 0` when `bestScore = 0` (so a zero-best iteration is accepted
iff `0 ≥ convergenceThreshold`, regardless of `newScore`); the candidate is
accepted — becomes current, `best := newScore`, `noImprovementCount := 0` —
iff `improvement ≥ convergenceThreshold`, and otherwise the iteration is
still recorded (the refined candidate stays persisted with its score) and
`noImprovementCount` is incremented by 1. -/
theorem refinement_decide_rule (cfg : RefineConfig) (run t : ℕ) (text : String)
    (newScore : ℚ) (i : ℕ) (st : TrackState) :
    ((refine_step cfg run t text newScore i st).1.improvement
        = if 0 < st.best then (newScore - st.best) / st.best else 0)
    ∧ ((refine_step cfg run t text newScore i st).1.accepted = true
        ↔ cfg.convergenceThreshold ≤ (refine_step cfg run t text newScore i st).1.improvement)
    ∧ ((refine_step cfg run t text newScore i st).1.accepted = true →
        (refine_step cfg run t text newScore i st).2.best = newScore
        ∧ (refine_step cfg run t text newScore i st).2.noImp = 0
        ∧ (refine_step cfg run t text newScore i st).2.parentId = PromptId.refinedAt t i)
    ∧ ((refine_step cfg run t text newScore i st).1.accepted = false →
        (refine_step cfg run t text newScore i st).2.best = st.best
        ∧ (refine_step cfg run t text newScore i st).2.noImp = st.noImp + 1
        ∧ (refine_step cfg run t text newScore i st).2.parentId = st.parentId)
    ∧ ∃ q ∈ (refine_step cfg run t text newScore i st).2.store,
        q.id = PromptId.refinedAt t i ∧ q.iteration = i ∧ q.trackId = some t
        ∧ q.stage = Stage.refined ∧ q.averageScore = some newScore := by
  have hmem : { refined_prompt_row run t i text st.parentId with averageScore := some newScore }
      ∈ (PromptRepo.save st.store (refined_prompt_row run t i text st.parentId)).map
          (fun q => if q.id = (refined_prompt_row run t i text st.parentId).id
            then { q with averageScore := some newScore } else q) := by
    have h1 := mem_save_self st.store (refined_prompt_row run t i text st.parentId)
    have h2 := List.mem_map_of_mem
      (fun q => if q.id = (refined_prompt_row run t i text st.parentId).id
        then { q with averageScore := some newScore } else q) h1
    simpa using h2
  simp only [refine_step]
  by_cases hc : check_improvement cfg
      (if 0 < st.best then (newScore - st.best) / st.best else 0) = true
  · rw [if_pos hc]
    refine ⟨rfl, ?_, fun _ => ⟨rfl, rfl, rfl⟩, fun habs => by simp at habs,
      ⟨_, hmem, rfl, rfl, rfl, rfl, rfl⟩⟩
    exact iff_of_true rfl (of_decide_eq_true hc)
  · rw [if_neg hc]
    refine ⟨rfl, ?_, fun habs => by simp at habs, fun _ => ⟨rfl, rfl, rfl⟩,
      ⟨_, hmem, rfl, rfl, rfl, rfl, rfl⟩⟩
    refine iff_of_false (by simp) (fun hle => hc ?_)
    simp [check_improvement, hle]

/-! ## C4 -/

/-- C4 counterexample: a `quick_filter` stage holding exactly one candidate
whose `average_score` is NULL.  `get_top_k(run, stage, 1)` returns that
unscored candidate (the query orders NULLs last but does not filter them),
so the result length is `1`, not `min(1, 0) = 0` as the claim requires. -/
theorem get_top_k_returns_unscored :
    PromptRepo.get_top_k [c4Row] 1 Stage.quick_filter 1 = [c4Row]
    ∧ ([c4Row].filter (fun p => p.averageScore.isSome)).length = 0 := by
  decide

/-- C4 (amended): `get_top_k(run, stage, k)` returns the first `k` rows of
SOME ordering of the stage's candidates by `average_score` descending with
NULLs last (the single score column serves both stages) — the query has no
tie-break key, so which of the tied/NULL orderings the database returns is
unspecified.  Under EVERY such plan the result has exactly
`min(k, number of candidates in the stage)` rows — when fewer than `k` have
a non-null score the remainder are the unscored candidates, with no error —
each row is a candidate of the stage, and the result is sorted by score
descending with NULLs last; the executable model realises one such plan. -/
theorem get_top_k_spec (store : List PromptRow) (run : ℕ) (stage : Stage) (k : ℕ) :
    (∀ plan : List PromptRow,
        plan.Perm (store.filter (fun p => decide (p.runId = run ∧ p.stage = stage))) →
        plan.Pairwise scoreDescLE →
          (plan.take k).length
              = min k (store.filter (fun p => decide (p.runId = run ∧ p.stage = stage))).length
          ∧ (plan.take k).Pairwise scoreDescLE
          ∧ ∀ p ∈ plan.take k,
              p ∈ store.filter (fun p => decide (p.runId = run ∧ p.stage = stage)))
    ∧ ∃ plan : List PromptRow,
        plan.Perm (store.filter (fun p => decide (p.runId = run ∧ p.stage = stage)))
        ∧ plan.Pairwise scoreDescLE
        ∧ PromptRepo.get_top_k store run stage k = plan.take k := by
  constructor
  · intro plan hperm hsorted
    refine ⟨?_, ?_, ?_⟩
    · rw [List.length_take, hperm.length_eq]
    · exact List.Pairwise.sublist (List.take_sublist _ _) hsorted
    · intro p hp
      exact hperm.subset (List.mem_of_mem_take hp)
  · refine ⟨(store.filter (fun p => decide (p.runId = run ∧ p.stage = stage))).insertionSort
        scoreDescLE,
      List.perm_insertionSort scoreDescLE _, List.sorted_insertionSort scoreDescLE _, ?_⟩
    rfl

/-! ## C1 -/

theorem champion_foldl_mem (p : PromptRow) (ps : List PromptRow) :
    ps.foldl (fun acc q => if championKey acc < championKey q then q else acc) p ∈ p :: ps := by
  induction ps generalizing p with
  | nil => simp
  | cons a ps ih =>
    simp only [List.foldl_cons]
    by_cases h : championKey p < championKey a
    · rw [if_pos h]
      have := ih a
      simp only [List.mem_cons] at this ⊢
      tauto
    · rw [if_neg h]
      have := ih p
      simp only [List.mem_cons] at this ⊢
      tauto

theorem champion_foldl_ge (p : PromptRow) (ps : List PromptRow) :
    ∀ q ∈ p :: ps, championKey q ≤ championKey
      (ps.foldl (fun acc r => if championKey acc < championKey r then r else acc) p) := by
  induction ps generalizing p with
  | nil =>
    intro q hq
    have : q = p := by simpa using hq
    exact this ▸ le_refl _
  | cons a ps ih =>
    intro q hq
    simp only [List.foldl_cons]
    have hstep : championKey p ≤ championKey (if championKey p < championKey a then a else p)
        ∧ championKey a ≤ championKey (if championKey p < championKey a then a else p) := by
      by_cases h : championKey p < championKey a
      · rw [if_pos h]
        exact ⟨le_of_lt h, le_refl _⟩
      · rw [if_neg h]
        exact ⟨le_refl _, le_of_not_lt h⟩
    have htop := ih (if championKey p < championKey a then a else p)
    rcases List.mem_cons.mp hq with hq0 | hq1
    · rw [hq0]
      exact le_trans hstep.1 (htop _ (List.mem_cons_self _ _))
    · rcases List.mem_cons.mp hq1 with hq2 | hq3
      · rw [hq2]
        exact le_trans hstep.2 (htop _ (List.mem_cons_self _ _))
      · exact htop q (List.mem_cons_of_mem _ hq3)

theorem pairwise_iter_le_getLast :
    ∀ (l : List PromptRow), l.Pairwise iterAscLE → ∀ (hne : l ≠ []),
      ∀ p ∈ l, p.iteration ≤ (l.getLast hne).iteration := by
  intro l
  induction l with
  | nil => intro _ hne; exact absurd rfl hne
  | cons a l ih =>
    intro hl hne p hp
    rcases l with _ | ⟨b, l'⟩
    · have : p = a := by simpa using hp
      subst this
      exact le_refl _
    · rw [List.getLast_cons (List.cons_ne_nil b l')]
      rcases List.mem_cons.mp hp with rfl | hp1
      · exact (List.pairwise_cons.mp hl).1 _ (List.getLast_mem (List.cons_ne_nil b l'))
      · exact ih (List.pairwise_cons.mp hl).2 (List.cons_ne_nil b l') p hp1

/-- C1 counterexample: on the concrete one-track store `cexStore` (scores
8 → 9 → 7), the reported champion is the iteration-1 candidate (score 9),
the track's final prompt is the iteration-2 candidate (score 7): the
champion is NOT any track's final prompt, its score differs from the
maximum of the final prompts' scores, and the final prompt is not the
best-scoring prompt of its track. -/
theorem champion_not_final_prompt :
    (find_champion cexStore 1).map PromptRow.id = some (PromptId.refinedAt 0 1)
    ∧ (build_refinement_tracks cexStore 1 1).map (fun tr => tr.finalPrompt.id)
        = [PromptId.refinedAt 0 2]
    ∧ (∀ tr ∈ build_refinement_tracks cexStore 1 1,
        tr.finalPrompt.id ≠ PromptId.refinedAt 0 1)
    ∧ (find_champion cexStore 1).map PromptRow.averageScore = some (some 9)
    ∧ (build_refinement_tracks cexStore 1 1).map (fun tr => tr.finalPrompt.averageScore)
        = [some 7]
    ∧ (∃ tr ∈ build_refinement_tracks cexStore 1 1, ∃ p ∈ tr.iterations,
        championKey tr.finalPrompt < championKey p) := by
  decide

/-- C1 (amended): each refinement track's final prompt is the track's
last-iteration candidate (the maximal `iteration` in the track, per the
source comment — not necessarily the best-scoring one), and the reported
champion is the highest-scoring candidate across ALL candidates of all
refinement tracks (seed and every persisted iteration, accepted or not):
the champion is one of the track candidates and its score is maximal among
them. -/
theorem reporting_champion_and_final_prompts (store : List PromptRow) (run topM : ℕ)
    (h : trackPrompts store run ≠ []) :
    (∃ c, find_champion store run = some c ∧ c ∈ trackPrompts store run ∧
        ∀ p ∈ trackPrompts store run, championKey p ≤ championKey c)
    ∧ ∀ tr ∈ build_refinement_tracks store run topM,
        tr.finalPrompt ∈ tr.iterations
        ∧ (∀ p ∈ tr.iterations, p.iteration ≤ tr.finalPrompt.iteration)
        ∧ tr.iterations = PromptRepo.get_by_track store run tr.trackId := by
  constructor
  · unfold find_champion
    rcases htp : trackPrompts store run with _ | ⟨p, ps⟩
    · exact absurd htp h
    · exact ⟨_, rfl, champion_foldl_mem p ps, champion_foldl_ge p ps⟩
  · intro tr htr
    obtain ⟨t, ht, hf⟩ := List.mem_filterMap.mp htr
    revert hf
    rcases hgb : PromptRepo.get_by_track store run t with _ | ⟨p, ps⟩
    · intro hf
      exact Option.noConfusion hf
    · intro hf
      have h2 := Option.some.inj hf
      subst h2
      have hsorted : (PromptRepo.get_by_track store run t).Pairwise iterAscLE :=
        List.sorted_insertionSort iterAscLE _
      rw [hgb] at hsorted
      refine ⟨List.getLast_mem _, ?_, hgb.symm⟩
      exact fun q hq => pairwise_iter_le_getLast _ hsorted (List.cons_ne_nil p ps) q hq

/-- C1 witness: the champion characterisation instantiated on the concrete
store `cexStore`. -/
theorem reporting_champion_witness :
    ∃ c, find_champion cexStore 1 = some c ∧ c ∈ trackPrompts cexStore 1 ∧
      ∀ p ∈ trackPrompts cexStore 1, championKey p ≤ championKey c :=
  (reporting_champion_and_final_prompts cexStore 1 1 (by decide)).1

/-! ## C3 -/

theorem refine_step_best_noImp (cfg : RefineConfig) (run t : ℕ) (text : String) (ns : ℚ)
    (i : ℕ) (st : TrackState) :
    ((refine_step cfg run t text ns i st).2.best, (refine_step cfg run t text ns i st).2.noImp)
      = if check_improvement cfg (if 0 < st.best then (ns - st.best) / st.best else 0) = true
          then (ns, 0) else (st.best, st.noImp + 1) := by
  simp only [refine_step]
  by_cases hc : check_improvement cfg
      (if 0 < st.best then (ns - st.best) / st.best else 0) = true
  · rw [if_pos hc, if_pos hc]
  · rw [if_neg hc, if_neg hc]

theorem refine_loop_bound (cfg : RefineConfig) (run t : ℕ) (texts : ℕ → String)
    (scores : ℕ → ℚ) (best0 : ℚ) :
    ∀ (fuel k : ℕ) (st : TrackState),
      st.best = (decide_state cfg scores best0 k).1 →
      st.noImp = (decide_state cfg scores best0 k).2 →
      (∀ m, m ≤ k → (decide_state cfg scores best0 m).2 < cfg.earlyStoppingPatience) →
      (refine_loop cfg run t texts scores (k + 1) fuel st).1.length ≤ fuel
      ∧ ∀ n, cfg.earlyStoppingPatience ≤ (decide_state cfg scores best0 n).2 →
          (refine_loop cfg run t texts scores (k + 1) fuel st).1.length + k ≤ n := by
  intro fuel
  induction fuel with
  | zero =>
    intro k st h1 h2 h3
    constructor
    · simp [refine_loop]
    · intro n hn
      simp only [refine_loop, List.length_nil, Nat.zero_add]
      by_contra hkn
      push_neg at hkn
      exact absurd hn (not_le_of_lt (h3 n (le_of_lt hkn)))
  | succ fuel ih =>
    intro k st h1 h2 h3
    have hstate := refine_step_best_noImp cfg run t (texts (k + 1)) (scores (k + 1)) (k + 1) st
    rw [h1, h2] at hstate
    have hdec : ((refine_step cfg run t (texts (k + 1)) (scores (k + 1)) (k + 1) st).2.best,
        (refine_step cfg run t (texts (k + 1)) (scores (k + 1)) (k + 1) st).2.noImp)
          = decide_state cfg scores best0 (k + 1) := by
      rw [hstate]
      rfl
    have hb' : (refine_step cfg run t (texts (k + 1)) (scores (k + 1)) (k + 1) st).2.best
        = (decide_state cfg scores best0 (k + 1)).1 := by
      have hx := congrArg Prod.fst hdec
      simpa using hx
    have hn' : (refine_step cfg run t (texts (k + 1)) (scores (k + 1)) (k + 1) st).2.noImp
        = (decide_state cfg scores best0 (k + 1)).2 := by
      have hx := congrArg Prod.snd hdec
      simpa using hx
    simp only [refine_loop]
    by_cases hstop : cfg.earlyStoppingPatience
        ≤ (refine_step cfg run t (texts (k + 1)) (scores (k + 1)) (k + 1) st).2.noImp
    · rw [if_pos hstop]
      constructor
      · simp only [List.length_singleton]
        omega
      · intro n hn
        simp only [List.length_singleton]
        by_contra hkn
        push_neg at hkn
        exact absurd hn (not_le_of_lt (h3 n (by omega)))
    · rw [if_neg hstop]
      have hnoImpLt : (decide_state cfg scores best0 (k + 1)).2 < cfg.earlyStoppingPatience := by
        rw [hn'] at hstop
        exact Nat.lt_of_not_le hstop
      have h3' : ∀ m, m ≤ k + 1 →
          (decide_state cfg scores best0 m).2 < cfg.earlyStoppingPatience := by
        intro m hm
        rcases Nat.lt_or_ge m (k + 1) with hx | hx
        · exact h3 m (Nat.lt_succ_iff.mp hx)
        · have hmk : m = k + 1 := le_antisymm hm hx
          rw [hmk]
          exact hnoImpLt
      obtain ⟨ihlen, ihbound⟩ := ih (k + 1)
        (refine_step cfg run t (texts (k + 1)) (scores (k + 1)) (k + 1) st).2 hb' hn' h3'
      constructor
      · simp only [List.length_cons]
        omega
      · intro n hn
        have hx := ihbound n hn
        simp only [List.length_cons]
        omega

/-- C3: a refinement track with `maxIterationsPerTrack = N` and
`earlyStoppingPatience = P ≥ 1` terminates: the loop executes at most `N`
iterations, and at most `n` iterations for every `n` at which the pure
Decide sequence has accumulated `P` consecutive non-improving iterations —
i.e. at most `min(N, first completed run of P non-improving iterations)`. -/
theorem refinement_track_terminates (cfg : RefineConfig) (run t : ℕ) (texts : ℕ → String)
    (scores : ℕ → ℚ) (ip : PromptRow) (store0 : List PromptRow)
    (hP : 1 ≤ cfg.earlyStoppingPatience) :
    (run_track cfg run t texts scores ip store0).1.length ≤ cfg.maxIterationsPerTrack
    ∧ ∀ n, cfg.earlyStoppingPatience ≤ (decide_state cfg scores (ip.averageScore.getD 0) n).2 →
        (run_track cfg run t texts scores ip store0).1.length ≤ n := by
  simp only [run_track]
  have h := refine_loop_bound cfg run t texts scores (ip.averageScore.getD 0)
    cfg.maxIterationsPerTrack 0
    { best := ip.averageScore.getD 0
      noImp := 0
      parentId := ip.id
      store := PromptRepo.save store0
        { ip with runId := run, trackId := some t, parentPromptId := (none : Option PromptId) } }
    rfl rfl
    (fun m hm => by
      have h0 : m = 0 := Nat.le_zero.mp hm
      rw [h0]
      exact Nat.lt_of_lt_of_le Nat.zero_lt_one hP)
  refine ⟨?_, fun n hn => ?_⟩
  · have h1 := h.1
    simpa using h1
  · have hx := h.2 n hn
    simpa using hx

/-- C3 witness: with `maxIterationsPerTrack = 2`, `patience = 1` and a
threshold of 100%, the track stops after one non-improving iteration. -/
theorem refinement_track_terminates_witness :
    (run_track w3Cfg 1 0 wTexts wScores w3Prompt []).1.length ≤ 2
    ∧ (run_track w3Cfg 1 0 wTexts wScores w3Prompt []).1.length ≤ 1 := by
  have h := refinement_track_terminates w3Cfg 1 0 wTexts wScores w3Prompt [] (by decide)
  exact ⟨h.1, h.2 1 (by decide)⟩

/-! ## C8 -/

theorem refine_step_store (cfg : RefineConfig) (run t : ℕ) (text : String) (ns : ℚ) (i : ℕ)
    (st : TrackState) (h : ∀ q ∈ st.store, q.id ≠ PromptId.refinedAt t i) :
    (refine_step cfg run t text ns i st).2.store
      = st.store
        ++ [{ refined_prompt_row run t i text st.parentId with averageScore := some ns }] := by
  have hsave : PromptRepo.save st.store (refined_prompt_row run t i text st.parentId)
      = st.store ++ [refined_prompt_row run t i text st.parentId] :=
    save_of_fresh st.store _ (fun q hq => h q hq)
  have hmap : List.map (fun q =>
        if q.id = (refined_prompt_row run t i text st.parentId).id
          then { q with averageScore := some ns } else q)
      (PromptRepo.save st.store (refined_prompt_row run t i text st.parentId))
      = st.store
        ++ [{ refined_prompt_row run t i text st.parentId with averageScore := some ns }] := by
    rw [hsave, List.map_append]
    congr 1
    · have hfix : ∀ q ∈ st.store, (if q.id = (refined_prompt_row run t i text st.parentId).id
          then { q with averageScore := some ns } else q) = q :=
        fun q hq => if_neg (h q hq)
      exact (List.map_congr_left hfix).trans (List.map_id _)
    · simp
  simp only [refine_step]
  split <;> split <;> exact hmap

theorem refine_step_parentId (cfg : RefineConfig) (run t : ℕ) (text : String) (ns : ℚ)
    (i : ℕ) (st : TrackState) :
    (refine_step cfg run t text ns i st).2.parentId = PromptId.refinedAt t i
    ∨ (refine_step cfg run t text ns i st).2.parentId = st.parentId := by
  simp only [refine_step]
  split <;> split
  · exact Or.inl rfl
  · exact Or.inr rfl
  · exact Or.inl rfl
  · exact Or.inr rfl

theorem lineage_append (store : List PromptRow) (row : PromptRow)
    (h : LineageOk store)
    (hrow : 0 < row.iteration →
      ∃ q ∈ store, row.parentPromptId = some q.id ∧ q.runId = row.runId
        ∧ q.trackId = row.trackId ∧ q.iteration < row.iteration) :
    LineageOk (store ++ [row]) := by
  intro p hp hpi
  rcases List.mem_append.mp hp with h1 | h1
  · obtain ⟨q, hq, hx⟩ := h p h1 hpi
    exact ⟨q, List.mem_append_left _ hq, hx⟩
  · have hpr : p = row := by simpa using h1
    subst hpr
    obtain ⟨q, hq, hx⟩ := hrow hpi
    exact ⟨q, List.mem_append_left _ hq, hx⟩

theorem refine_loop_lineage (cfg : RefineConfig) (run t : ℕ) (texts : ℕ → String)
    (scores : ℕ → ℚ) :
    ∀ (fuel i : ℕ) (st : TrackState),
      LineageOk st.store →
      (∃ q ∈ st.store, st.parentId = q.id ∧ q.runId = run ∧ q.trackId = some t
        ∧ q.iteration < i) →
      (∀ p ∈ st.store, ∀ j, i ≤ j → p.id ≠ PromptId.refinedAt t j) →
      LineageOk (refine_loop cfg run t texts scores i fuel st).2.store := by
  intro fuel
  induction fuel with
  | zero =>
    intro i st h1 _ _
    simpa [refine_loop] using h1
  | succ fuel ih =>
    intro i st h1 h2 h3
    have hfresh_i : ∀ q ∈ st.store, q.id ≠ PromptId.refinedAt t i :=
      fun q hq => h3 q hq i (le_refl i)
    have hstore := refine_step_store cfg run t (texts i) (scores i) i st hfresh_i
    have hL : LineageOk (refine_step cfg run t (texts i) (scores i) i st).2.store := by
      rw [hstore]
      apply lineage_append _ _ h1
      intro _
      obtain ⟨q, hq, hid, hrun, htr, hit⟩ := h2
      exact ⟨q, hq, congrArg some hid, hrun.symm ▸ rfl, htr.symm ▸ rfl, hit⟩
    simp only [refine_loop]
    by_cases hstop : cfg.earlyStoppingPatience
        ≤ (refine_step cfg run t (texts i) (scores i) i st).2.noImp
    · rw [if_pos hstop]
      exact hL
    · rw [if_neg hstop]
      apply ih (i + 1) (refine_step cfg run t (texts i) (scores i) i st).2 hL
      · rcases refine_step_parentId cfg run t (texts i) (scores i) i st with hp | hp
        · refine ⟨{ refined_prompt_row run t i (texts i) st.parentId
              with averageScore := some (scores i) }, ?_, hp, rfl, rfl, Nat.lt_succ_self i⟩
          rw [hstore]
          exact List.mem_append_right _ (List.mem_singleton_self _)
        · obtain ⟨q, hq, hid, hrun, htr, hit⟩ := h2
          refine ⟨q, ?_, hp.trans hid, hrun, htr, Nat.lt_succ_of_lt hit⟩
          rw [hstore]
          exact List.mem_append_left _ hq
      · intro p hp j hj
        rw [hstore] at hp
        rcases List.mem_append.mp hp with hp1 | hp1
        · exact h3 p hp1 j (by omega)
        · have hpr : p = { refined_prompt_row run t i (texts i) st.parentId
              with averageScore := some (scores i) } := by simpa using hp1
          rw [hpr]
          simp only [refined_prompt_row, ne_eq, PromptId.refinedAt.injEq]
          omega

/-- C8: starting a refinement track from any pre-refinement store — every
candidate at iteration 0 with no parent, no candidate carrying a refined id
of this track — every save the track performs preserves the lineage
invariant: each persisted candidate with `iteration > 0` has a non-null
`parentPromptId` resolving to an already-persisted candidate of the same
run and `trackId` with strictly smaller `iteration`. -/
theorem refinement_preserves_lineage (cfg : RefineConfig) (run t : ℕ) (texts : ℕ → String)
    (scores : ℕ → ℚ) (ip : PromptRow) (store0 : List PromptRow)
    (h0 : ∀ p ∈ store0, p.iteration = 0 ∧ p.parentPromptId = none)
    (hip : ip.iteration = 0)
    (hfresh : ∀ p ∈ store0, ∀ j, p.id ≠ PromptId.refinedAt t j)
    (hipfresh : ∀ j, ip.id ≠ PromptId.refinedAt t j) :
    LineageOk (run_track cfg run t texts scores ip store0).2.store := by
  simp only [run_track]
  apply refine_loop_lineage cfg run t texts scores cfg.maxIterationsPerTrack 1
  · intro p hp hpi
    rcases mem_of_mem_save store0 _ p hp with h | h
    · rw [h] at hpi
      simp [hip] at hpi
    · rw [(h0 p h).1] at hpi
      simp at hpi
  · refine ⟨_, mem_save_self store0
        { ip with runId := run, trackId := some t, parentPromptId := (none : Option PromptId) },
      rfl, rfl, rfl, ?_⟩
    simp [hip]
  · intro p hp j _
    rcases mem_of_mem_save store0 _ p hp with h | h
    · rw [h]
      exact hipfresh j
    · exact hfresh p h j

/-- C8 witness: the lineage invariant evaluated after a concrete track run
seeded from an empty store. -/
theorem refinement_preserves_lineage_witness :
    LineageOk (run_track w3Cfg 1 0 wTexts wScores w3Prompt []).2.store :=
  refinement_preserves_lineage w3Cfg 1 0 wTexts wScores w3Prompt []
    (by simp) rfl (by simp) (fun j h => PromptId.noConfusion h)

/-! ## C9 -/

theorem applyWrite_runs (st : Store) (wo : WriteOp) : (applyWrite st wo).runs = st.runs := by
  cases wo <;> rfl

theorem foldl_applyWrite_runs (ws : List WriteOp) :
    ∀ st : Store, (ws.foldl applyWrite st).runs = st.runs := by
  induction ws with
  | nil => intro st; rfl
  | cons w ws ih =>
    intro st
    rw [List.foldl_cons, ih, applyWrite_runs]

theorem run_stages_runs (stages : List StageRun) :
    ∀ st : Store, (run_stages stages st).1.runs = st.runs := by
  induction stages with
  | nil => intro st; rfl
  | cons s rest ih =>
    intro st
    simp only [run_stages, run_stage]
    rcases hf : s.failure with _ | e
    · simp only [hf]
      rw [ih, foldl_applyWrite_runs]
    · simp only [hf]
      exact foldl_applyWrite_runs s.writes st

theorem get_by_id_append_self (runs : List RunRow) (row : RunRow)
    (h : RunRepo.get_by_id runs row.id = none) :
    RunRepo.get_by_id (runs ++ [row]) row.id = some row := by
  unfold RunRepo.get_by_id at h ⊢
  induction runs with
  | nil => simp
  | cons r rs ih =>
    by_cases hr : r.id = row.id
    · rw [List.find?_cons_of_pos _ (by simpa using hr)] at h
      exact Option.noConfusion h
    · rw [List.find?_cons_of_neg _ (by simpa using hr)] at h
      rw [List.cons_append, List.find?_cons_of_neg _ (by simpa using hr)]
      exact ih h

theorem get_by_id_complete (runs : List RunRow) (runId : ℕ) (c : PromptId) (tt : ℕ)
    (time now : ℚ) (r : RunRow) (h : RunRepo.get_by_id runs runId = some r) :
    RunRepo.get_by_id (RunRepo.complete runs runId c tt time now) runId
      = some { r with
          completedAt := some now
          championPromptId := some c
          totalTestsRun := some tt
          totalTimeSeconds := some time
          status := RunStatus.completed } := by
  unfold RunRepo.complete
  rw [h]
  unfold RunRepo.get_by_id at h ⊢
  induction runs with
  | nil => exact Option.noConfusion h
  | cons hd tl ih =>
    by_cases hid : hd.id = runId
    · rw [List.find?_cons_of_pos _ (by simpa using hid)] at h
      have hr : hd = r := by simpa using h
      rw [List.map_cons, if_pos hid, List.find?_cons_of_pos _ (by simpa using hid), hr]
    · rw [List.find?_cons_of_neg _ (by simpa using hid)] at h
      rw [List.map_cons, if_neg hid, List.find?_cons_of_neg _ (by simpa using hid)]
      exact ih h

/-- C9: if any pipeline stage raises, the error propagates with no local
retry and run completion is never invoked — the persisted run row keeps
status `running` with no champion id and no totals; the `completed` status,
champion id, total tests and elapsed time are written only on the all-stages
success path. -/
theorem stage_error_aborts_run (stages : List StageRun) (runId totalTests : ℕ)
    (totalTime : ℚ) (st0 : Store)
    (hfresh : RunRepo.get_by_id st0.runs runId = none) :
    ((optimize stages runId totalTests totalTime st0).2.isSome = true →
      RunRepo.get_by_id (optimize stages runId totalTests totalTime st0).1.runs runId
        = some { id := runId, status := RunStatus.running, championPromptId := none,
                 totalTestsRun := none, totalTimeSeconds := none, completedAt := none })
    ∧ ((optimize stages runId totalTests totalTime st0).2 = none →
      ∃ rr, RunRepo.get_by_id (optimize stages runId totalTests totalTime st0).1.runs runId
          = some rr
        ∧ rr.status = RunStatus.completed ∧ rr.championPromptId.isSome = true
        ∧ rr.totalTestsRun = some totalTests ∧ rr.totalTimeSeconds = some totalTime) := by
  have hpipe := run_stages_runs stages { st0 with runs := RunRepo.create st0.runs runId }
  have hfind : RunRepo.get_by_id
      (run_stages stages { st0 with runs := RunRepo.create st0.runs runId }).1.runs runId
      = some { id := runId, status := RunStatus.running, championPromptId := none,
               totalTestsRun := none, totalTimeSeconds := none, completedAt := none } := by
    rw [hpipe]
    exact get_by_id_append_self st0.runs _ hfresh
  simp only [optimize]
  rcases hres : (run_stages stages { st0 with runs := RunRepo.create st0.runs runId }).2
    with _ | e
  · rcases hch : find_champion
        (run_stages stages { st0 with runs := RunRepo.create st0.runs runId }).1.prompts runId
      with _ | champ
    · exact ⟨fun _ => hfind, fun habs => Option.noConfusion habs⟩
    · constructor
      · intro habs
        exact Bool.noConfusion habs
      · intro _
        exact ⟨_, get_by_id_complete _ runId champ.id totalTests totalTime totalTime _ hfind,
          rfl, rfl, rfl, rfl⟩
  · exact ⟨fun _ => hfind, fun habs => Option.noConfusion habs⟩

/-- C9 witness: a one-stage pipeline that raises an oracle failure leaves
the fresh run `running` with no champion. -/
theorem stage_error_aborts_run_witness :
    (optimize w9Stages 1 0 0 w9Store).2.isSome = true
    ∧ RunRepo.get_by_id (optimize w9Stages 1 0 0 w9Store).1.runs 1
        = some { id := 1, status := RunStatus.running, championPromptId := none,
                 totalTestsRun := none, totalTimeSeconds := none, completedAt := none } :=
  ⟨by decide, (stage_error_aborts_run w9Stages 1 0 0 w9Store rfl).1 (by decide)⟩

end PromptOpt
